import Mathlib

/-!
Verification of the blimp multi-source log aggregation engine.

This file gives a shallow embedding of the log aggregation core of the
blimp CLI (`cli/logs`): the timestamp codec (`parseLogLine`), the color
assigner (`pickColor` over an FNV-1 32-bit hash), the reconnect duplicate
filter (`isOldMessage`), the per-source read loop (`readLoopNF`), the
windowed aggregator/printer (`flush`, `printLogsGo`), the direct status
message printer (`printStatusMessage`), and the completion tracker
(`runningCount` with its per-reader decrement/increment discipline,
modelled as a guarded transition system `aggStep`/`runTrace`).

Conventions of the embedding:
- Go `time.Time` values are logical clock readings modelled as `Nat`
  (the zero value of `time.Time` is `0`; `After` is `<` flipped).
- Go `error` values are `Option String` (`none` = nil).
- The external Kubernetes/goterm library functions used by the code
  (`time.Parse` with the two RFC3339 layouts, and `goterm.Color`) are
  parameters collected in the `Deps` structure; `D0` is one concrete
  instantiation used to evaluate the model on closed inputs.
- Output writes are modelled as `outLine` values tagged with the stream
  (stdout vs stderr) they are written to, including the exact newline
  behavior of `Fprintf`/`Fprintln`.
-/

/-- The UTF-8 bytes of a string, as produced by Go's `[]byte(s)` conversion. -/
def utf8Bytes (s : String) : List UInt8 :=
  s.data.flatMap String.utf8EncodeChar

/-- The FNV-1 32-bit hash (Go's `hash/fnv`, `fnv.New32`): starting from the
offset basis 2166136261, each byte step multiplies by the prime 16777619
modulo 2^32 and then XORs the byte in.  This is what `pickColor` feeds its
`hash.Write([]byte(container))` / `hash.Sum32()` calls with. -/
def fnv32 (s : String) : Nat :=
  (utf8Bytes s).foldl (fun h b => ((h * 16777619) % 4294967296) ^^^ b.toNat) 2166136261

/-- goterm color constant (goterm declares BLACK..WHITE as iota 0..7). -/
def BLACK : Nat := 0
/-- goterm color constant. -/
def RED : Nat := 1
/-- goterm color constant. -/
def GREEN : Nat := 2
/-- goterm color constant. -/
def YELLOW : Nat := 3
/-- goterm color constant. -/
def BLUE : Nat := 4
/-- goterm color constant. -/
def MAGENTA : Nat := 5
/-- goterm color constant. -/
def CYAN : Nat := 6
/-- goterm color constant. -/
def WHITE : Nat := 7

/-- The fixed 6-color palette `colorList` of `cli/logs`. -/
def colorList : List Nat := [BLUE, CYAN, GREEN, MAGENTA, RED, YELLOW]

/-- Model of `pickColor`: FNV-32 hash of the container name modulo the
palette size, used to index the palette (the `hash.Write` error branch is
dead code: writing to an FNV hash never fails). -/
def pickColor (container : String) : Nat :=
  colorList.get ⟨fnv32 container % colorList.length,
    Nat.mod_lt _ (by decide)⟩

/-- External collaborators of the aggregation core, abstracted as function
parameters: `time.Parse(time.RFC3339Nano, ·)` and `time.Parse(time.RFC3339, ·)`
returning `none` on a parse error, and `goterm.Color`. -/
structure Deps where
  parseRFC3339Nano : String → Option Nat
  parseRFC3339 : String → Option Nat
  gotermColor : String → Nat → String

/-- Splits a character list at the first space, as Go's
`strings.SplitN(s, " ", 2)` does on a UTF-8 string (the byte 0x20 can only
occur as the space character).  Returns `none` when there is no space. -/
def splitFirstSpace : List Char → Option (List Char × List Char)
  | [] => none
  | c :: rest =>
    if c = ' ' then some ([], rest)
    else
      match splitFirstSpace rest with
      | none => none
      | some (a, b) => some (c :: a, b)

/-- Model of `parseLogLine`: split the raw message at the first space;
fail with "malformed line" when there is no space; otherwise parse the
prefix as RFC3339Nano, falling back to RFC3339, failing with
"parse timestamp" when neither parses.  On success returns the message
with the timestamp prefix stripped, and the parsed timestamp. -/
def parseLogLine (D : Deps) (rawMessage : String) : Except String (String × Nat) :=
  match splitFirstSpace rawMessage.data with
  | none => .error "malformed line"
  | some (rawTimestamp, message) =>
    match D.parseRFC3339Nano ⟨rawTimestamp⟩ with
    | some timestamp => .ok (⟨message⟩, timestamp)
    | none =>
      match D.parseRFC3339 ⟨rawTimestamp⟩ with
      | some timestamp => .ok (⟨message⟩, timestamp)
      | none => .error "parse timestamp"

/-- Model of the `isOldMessage` closure in `Command.forwardLogs`.  It reads
the captured `sinceTime` and `lastMessageTime` and returns the boolean
result together with the (possibly updated) `lastMessageTime`:
an empty message or one whose timestamp does not parse is never old;
a message whose timestamp is not after `sinceTime` is old; otherwise the
message is new and `lastMessageTime` is raised to its timestamp if larger. -/
def isOldMessage (D : Deps) (sinceTime lastMessageTime : Nat) (message : String) :
    Bool × Nat :=
  if message = "" then (false, lastMessageTime)
  else
    match parseLogLine D message with
    | .error _ => (false, lastMessageTime)
    | .ok (_, timestamp) =>
      if ¬ sinceTime < timestamp then (true, lastMessageTime)
      else if lastMessageTime < timestamp then (false, timestamp)
      else (false, lastMessageTime)

/-- The `isOldMessage` verdict does not depend on `lastMessageTime`: a
message is old exactly when it parses and its timestamp is at most
`sinceTime`.  This pure form is what the dedup claims quantify over. -/
def isOldPure (D : Deps) (sinceTime : Nat) (message : String) : Bool :=
  if message = "" then false
  else
    match parseLogLine D message with
    | .error _ => false
    | .ok (_, timestamp) => decide (¬ sinceTime < timestamp)

/-- A concrete `Deps` instantiation used for evaluating the model on
closed inputs: the Nano layout parser accepts decimal digit strings, the
plain RFC3339 parser accepts nothing, and colorization appends the color
number after a hash mark. -/
def D0 : Deps where
  parseRFC3339Nano s :=
    if s.data ≠ [] ∧ s.data.all (·.isDigit) then
      some (s.data.foldl (fun n c => n * 10 + (c.toNat - 48)) 0)
    else none
  parseRFC3339 _ := none
  gotermColor s c := s ++ "#" ++ toString c

lemma isOldMessage_fst (D : Deps) (sinceTime lastMessageTime : Nat) (message : String) :
    (isOldMessage D sinceTime lastMessageTime message).1 = isOldPure D sinceTime message := by
  unfold isOldMessage isOldPure
  split
  · rfl
  · rcases h : parseLogLine D message with e | ⟨m, ts⟩ <;> simp only
    split
    · simp
      omega
    · split <;> simp_all

/-- C9: pickColor is a pure deterministic function of the source name: its
result is always a member of the fixed 6-color palette, it equals the
FNV-32 hash of the name modulo the palette size used as a palette index,
and any repeated call on an equal name returns the same color. -/
theorem pickColor_pure_palette (name : String) :
    pickColor name ∈ colorList
    ∧ pickColor name =
        colorList.get ⟨fnv32 name % colorList.length, Nat.mod_lt _ (by decide)⟩
    ∧ ∀ other : String, other = name → pickColor other = pickColor name := by
  refine ⟨List.get_mem _ _ _, rfl, ?_⟩
  intro other h
  rw [h]

/-- Witness for C9 at the concrete source names used in the spec's
scenario A. -/
theorem pickColor_pure_palette_witness :
    pickColor "web" ∈ colorList ∧ pickColor "web" = pickColor "web" :=
  ⟨(pickColor_pure_palette "web").1, (pickColor_pure_palette "web").2.2 "web" rfl⟩

/-- C10: the reconnect duplicate filter never classifies as a duplicate a
message that is empty or whose timestamp prefix fails to parse:
`isOldMessage` returns `false` (leaving `lastMessageTime` untouched)
regardless of `sinceTime`, and the pure verdict `isOldPure` is `false` for
every `sinceTime`, so such lines bypass dedup after a reconnect. -/
theorem isOldMessage_malformed_bypasses_dedup (D : Deps)
    (sinceTime lastMessageTime : Nat) (message : String)
    (h : message = "" ∨ ∃ e, parseLogLine D message = .error e) :
    isOldMessage D sinceTime lastMessageTime message = (false, lastMessageTime)
    ∧ ∀ t : Nat, isOldPure D t message = false := by
  rcases h with h | ⟨e, h⟩
  · subst h
    exact ⟨rfl, fun _ => rfl⟩
  · constructor
    · unfold isOldMessage
      split
      · rfl
      · rw [h]
    · intro t
      unfold isOldPure
      split
      · rfl
      · rw [h]

/-- Witness for C10 on a message whose timestamp prefix is not numeric. -/
theorem isOldMessage_malformed_bypasses_dedup_witness :
    isOldMessage D0 9 4 "oops not-a-timestamp" = (false, 4)
    ∧ isOldPure D0 7 "oops not-a-timestamp" = false :=
  ⟨(isOldMessage_malformed_bypasses_dedup D0 9 4 "oops not-a-timestamp"
      (Or.inr ⟨"parse timestamp", rfl⟩)).1,
   (isOldMessage_malformed_bypasses_dedup D0 9 4 "oops not-a-timestamp"
      (Or.inr ⟨"parse timestamp", rfl⟩)).2 7⟩

/-- Model of `rawLogLine`: one line as received, pre-sort.  `error` is the
Go error value (`none` = nil); when it is set, `message` and `receivedAt`
are not meaningful.  Field order follows the source. -/
structure rawLogLine where
  error : Option String
  fromContainer : String
  message : String
  receivedAt : Nat
deriving DecidableEq

/-- Model of `parsedLogLine`: one line derived for display.  When
`formatOverride` is nonempty, `fromContainer` and `message` are ignored
while printing. -/
structure parsedLogLine where
  fromContainer : String
  message : String
  loggedAt : Nat
  formatOverride : String
deriving DecidableEq

/-- One result of `reader.ReadString('\n')` inside the read loop: the
returned string (with its trailing newline when complete), the wall-clock
instant `time.Now()` would observe for it, and the returned error. -/
structure readEv where
  message : String
  now : Nat
  err : Option String
deriving DecidableEq

/-- Go's `strings.TrimSuffix(message, "\n")`: removes one trailing newline
if present. -/
def trimNewline (s : String) : String :=
  if s.data.getLast? = some '\n' then ⟨s.data.dropLast⟩ else s

/-- Model of the inner read loop of `Command.forwardLogs` (lines 287-326)
for a connection in non-follow mode (`Opts.Follow = false`), after the
stream has been opened: `sinceTime` is fixed for the connection,
`lastMessageTime` threads through the `isOldMessage` calls.  Each
successful read is either discarded as a duplicate or forwarded to the
combined channel with the newline trimmed; a read that returns an error is
always forwarded carrying that error, after which the function returns
("recv log stream").  The result is the list of forwarded lines, the final
`lastMessageTime`, and whether the loop returned (`true`) or is still
awaiting input (`false`). -/
def readLoopNF (D : Deps) (service : String) (sinceTime lastMessageTime : Nat) :
    List readEv → List rawLogLine × Nat × Bool
  | [] => ([], lastMessageTime, false)
  | ev :: rest =>
    match ev.err with
    | none =>
      match isOldMessage D sinceTime lastMessageTime ev.message with
      | (true, lm2) => readLoopNF D service sinceTime lm2 rest
      | (false, lm2) =>
        match readLoopNF D service sinceTime lm2 rest with
        | (ls, lmf, done) =>
          (⟨none, service, trimNewline ev.message, ev.now⟩ :: ls, lmf, done)
    | some e => ([⟨some e, service, trimNewline ev.message, ev.now⟩], lastMessageTime, true)


lemma parseLogLine_empty (D : Deps) : parseLogLine D "" = .error "malformed line" := rfl

lemma readLoopNF_filter (D : Deps) (service : String) (t : Nat) :
    ∀ (stream : List readEv) (lastMessageTime : Nat),
      (∀ ev ∈ stream, ev.err = none) →
      (readLoopNF D service t lastMessageTime stream).1 =
        (stream.filter (fun ev => ! isOldPure D t ev.message)).map
          (fun ev => ⟨none, service, trimNewline ev.message, ev.now⟩)
  | [], _, _ => rfl
  | ev :: rest, lm, hs => by
    have hev : ev.err = none := hs ev (by simp)
    have hrest : ∀ e ∈ rest, e.err = none := fun e he => hs e (by simp [he])
    have hfst := isOldMessage_fst D t lm ev.message
    unfold readLoopNF
    rw [hev]
    rcases hmsg : isOldMessage D t lm ev.message with ⟨old, lm2⟩
    rw [hmsg] at hfst
    rw [List.filter_cons]
    cases old with
    | true =>
      rw [if_neg (by simp [← hfst])]
      exact readLoopNF_filter D service t rest lm2 hrest
    | false =>
      rw [if_pos (by simp [← hfst])]
      rcases hr : readLoopNF D service t lm2 rest with ⟨ls, lmf, done⟩
      have := readLoopNF_filter D service t rest lm2 hrest
      rw [hr] at this
      simp only [List.map_cons]
      rw [← this, hr]

/-- C3: after a reconnect with `sinceTime = t`, the read loop forwards
exactly the lines that are not old: every line whose parsed timestamp is
at most `t` is dropped, and every line whose parsed timestamp is strictly
greater than `t` is forwarded, even when the provider delivers it again
(the filter keeps every such occurrence).  The second conjunct identifies
the old verdict with the timestamp comparison for parseable lines. -/
theorem readLoopNF_dedup_since (D : Deps) (service : String) (t lastMessageTime : Nat)
    (stream : List readEv) (hs : ∀ ev ∈ stream, ev.err = none) :
    (readLoopNF D service t lastMessageTime stream).1 =
      (stream.filter (fun ev => ! isOldPure D t ev.message)).map
        (fun ev => ⟨none, service, trimNewline ev.message, ev.now⟩)
    ∧ ∀ m x ts, parseLogLine D m = .ok (x, ts) →
        (isOldPure D t m = true ↔ ts ≤ t) := by
  refine ⟨readLoopNF_filter D service t stream lastMessageTime hs, ?_⟩
  intro m x ts hp
  have hm : ¬ m = "" := by
    intro he
    subst he
    rw [parseLogLine_empty] at hp
    simp at hp
  unfold isOldPure
  rw [if_neg hm, hp]
  simp [Nat.not_lt]

/-- Witness for C3: with `sinceTime = 5`, a redelivered line stamped 5 is
dropped while a line stamped 9 is forwarded. -/
theorem readLoopNF_dedup_since_witness :
    (readLoopNF D0 "web" 5 5 [⟨"5 dup\n", 11, none⟩, ⟨"9 new\n", 12, none⟩]).1 =
      [⟨none, "web", "9 new", 12⟩]
    ∧ (isOldPure D0 5 "5 dup\n" = true ↔ 5 ≤ 5) := by
  have h := readLoopNF_dedup_since D0 "web" 5 5
    [⟨"5 dup\n", 11, none⟩, ⟨"9 new\n", 12, none⟩] (by decide)
  exact ⟨by rw [h.1]; rfl, h.2 "5 dup\n" "dup\n" 5 (by rfl)⟩

lemma readLoopNF_error_aux (D : Deps) (service : String) (t : Nat)
    (ev : readEv) (e : String) (he : ev.err = some e) (rest : List readEv) :
    ∀ (pre : List readEv) (lm : Nat), (∀ x ∈ pre, x.err = none) →
      readLoopNF D service t lm (pre ++ ev :: rest) =
        ((readLoopNF D service t lm pre).1 ++
            [⟨some e, service, trimNewline ev.message, ev.now⟩],
          (readLoopNF D service t lm pre).2.1, true)
  | [], lm, _ => by
    simp only [List.nil_append]
    unfold readLoopNF
    rw [he]
    rfl
  | x :: pre, lm, hs => by
    have hx : x.err = none := hs x (by simp)
    have hpre : ∀ y ∈ pre, y.err = none := fun y hy => hs y (by simp [hy])
    have ih := readLoopNF_error_aux D service t ev e he rest pre
    simp only [List.cons_append]
    rcases hmsg : isOldMessage D t lm x.message with ⟨old, lm2⟩
    cases old with
    | true =>
      simp only [readLoopNF, hx, hmsg]
      exact ih lm2 hpre
    | false =>
      rcases hB : readLoopNF D service t lm2 pre with ⟨bs, blm, bdone⟩
      have ih2 := ih lm2 hpre
      rw [hB] at ih2
      simp only [readLoopNF, hx, hmsg, ih2, hB]
      rfl

/-- C5: in non-follow mode, when a read of an active stream terminates
with an error (including natural end-of-stream), the read loop emits
exactly one final rawLogLine carrying that error — every line emitted
before it is error-free, the error line is the last one emitted — and the
loop returns for good: whatever the provider would have delivered
afterwards is never read, so the emitted output does not depend on it. -/
theorem readLoopNF_one_terminal_error (D : Deps) (service : String) (t lm : Nat)
    (pre : List readEv) (ev : readEv) (rest : List readEv) (e : String)
    (hpre : ∀ x ∈ pre, x.err = none) (he : ev.err = some e) :
    readLoopNF D service t lm (pre ++ ev :: rest) =
      ((readLoopNF D service t lm pre).1 ++
          [⟨some e, service, trimNewline ev.message, ev.now⟩],
        (readLoopNF D service t lm pre).2.1, true)
    ∧ (∀ l ∈ (readLoopNF D service t lm pre).1, l.error = none)
    ∧ ∀ rest2 : List readEv,
        readLoopNF D service t lm (pre ++ ev :: rest2) =
          readLoopNF D service t lm (pre ++ ev :: rest) := by
  refine ⟨readLoopNF_error_aux D service t ev e he rest pre lm hpre, ?_, ?_⟩
  · rw [readLoopNF_filter D service t pre lm hpre]
    intro l hl
    rcases List.mem_map.mp hl with ⟨y, _, hy⟩
    rw [← hy]
  · intro rest2
    rw [readLoopNF_error_aux D service t ev e he rest pre lm hpre,
      readLoopNF_error_aux D service t ev e he rest2 pre lm hpre]

/-- Witness for C5: a two-line stream whose read then fails with EOF emits
the good line followed by exactly one error-carrying line and stops. -/
theorem readLoopNF_one_terminal_error_witness :
    readLoopNF D0 "web" 0 0 ([⟨"3 hello\n", 10, none⟩] ++ ⟨"", 11, some "EOF"⟩ :: []) =
      ((readLoopNF D0 "web" 0 0 [⟨"3 hello\n", 10, none⟩]).1 ++ [⟨some "EOF", "web", "", 11⟩],
        (readLoopNF D0 "web" 0 0 [⟨"3 hello\n", 10, none⟩]).2.1, true)
    ∧ (∀ l ∈ (readLoopNF D0 "web" 0 0 [⟨"3 hello\n", 10, none⟩]).1, l.error = none)
    ∧ ∀ rest2 : List readEv,
        readLoopNF D0 "web" 0 0 ([⟨"3 hello\n", 10, none⟩] ++ ⟨"", 11, some "EOF"⟩ :: rest2) =
          readLoopNF D0 "web" 0 0
            ([⟨"3 hello\n", 10, none⟩] ++ ⟨"", 11, some "EOF"⟩ :: []) := by
  have h := readLoopNF_one_terminal_error D0 "web" 0 0 [⟨"3 hello\n", 10, none⟩]
    ⟨"", 11, some "EOF"⟩ [] "EOF" (by decide) rfl
  exact h

/-- An output write of the printer, tagged with the stream it goes to.
The payload is the exact string written, including the newline appended by
`Fprintln` / the `"%s\n"` format (and its absence for `formatOverride`). -/
inductive outLine
  | stdout (line : String)
  | stderr (line : String)
deriving DecidableEq

/-- Parsing of one window entry inside `flush` (printLogs, lines 353-397):
an error-carrying entry contributes its message only when nonempty; in
every parse the timestamp-parse failure falls back to `receivedAt`; the
produced `parsedLogLine` never sets `formatOverride`. -/
def mkParsed (D : Deps) (rawLog : rawLogLine) : List parsedLogLine :=
  match rawLog.error with
  | some _ =>
    if rawLog.message ≠ "" then
      match parseLogLine D rawLog.message with
      | .ok (message, timestamp) => [⟨rawLog.fromContainer, message, timestamp, ""⟩]
      | .error _ => [⟨rawLog.fromContainer, rawLog.message, rawLog.receivedAt, ""⟩]
    else []
  | none =>
    match parseLogLine D rawLog.message with
    | .ok (message, timestamp) => [⟨rawLog.fromContainer, message, timestamp, ""⟩]
    | .error _ => [⟨rawLog.fromContainer, rawLog.message, rawLog.receivedAt, ""⟩]

/-- The `parsedLogs` list built by `flush` before sorting: the window
entries parsed in arrival order. -/
def parseWindow (D : Deps) (window : List rawLogLine) : List parsedLogLine :=
  window.flatMap (mkParsed D)

/-- The comparison underlying `byLogTime`: Go's
`sort.SliceStable(parsedLogs, byLogTime)` with
`byLogTime i j = loggedAt i Before loggedAt j` produces the unique
permutation that is non-decreasing in `loggedAt` and keeps elements with
equal keys in input order; a stable insertion sort under the reflexive
closure of `Before` computes exactly that permutation. -/
def leLog (a b : parsedLogLine) : Prop := a.loggedAt ≤ b.loggedAt

instance : DecidableRel leLog := fun a b => Nat.decLe a.loggedAt b.loggedAt

instance : IsTotal parsedLogLine leLog := ⟨fun a b => Nat.le_total a.loggedAt b.loggedAt⟩

instance : IsTrans parsedLogLine leLog := ⟨fun _ _ _ hab hbc => Nat.le_trans hab hbc⟩

/-- The sorted window: `sort.SliceStable(parsedLogs, byLogTime)`. -/
def sortWindow (D : Deps) (window : List rawLogLine) : List parsedLogLine :=
  List.insertionSort leLog (parseWindow D window)

/-- The print step of `flush` for one sorted entry: a nonempty
`formatOverride` is written literally to stdout (no newline added);
otherwise the bare message (single service) or the colorized
`source › message` form is written with a newline. -/
def printOne (D : Deps) (hideServiceName : Bool) (log : parsedLogLine) : outLine :=
  if log.formatOverride ≠ "" then outLine.stdout log.formatOverride
  else if hideServiceName then outLine.stdout (log.message ++ "\n")
  else
    outLine.stdout
      (D.gotermColor log.fromContainer (pickColor log.fromContainer) ++ " › " ++
        log.message ++ "\n")

/-- Everything one `flush` call writes: the parsed window, stably sorted
by logical timestamp, printed entry by entry. -/
def flushOutput (D : Deps) (hideServiceName : Bool) (window : List rawLogLine) :
    List outLine :=
  (sortWindow D window).map (printOne D hideServiceName)

/-- Model of `printStatusMessage`: writes the status message directly to
stderr, prepending a colored `service - ` marker unless the service name
is hidden. -/
def printStatusMessage (D : Deps) (service message : String) (hideServiceName : Bool) :
    outLine :=
  outLine.stderr
    ((if hideServiceName then ""
      else D.gotermColor service (pickColor service) ++ " - ") ++ message ++ "\n")

/-- One event observed by the `printLogs` select loop: a line received
from the combined channel, the channel reporting closure (`ok = false`),
the flush timer firing, or the context being cancelled with the given
lines still queued on the channel. -/
inductive plEvent
  | recv (logLine : rawLogLine)
  | closed
  | flushTick
  | ctxDone (queued : List rawLogLine)
deriving DecidableEq

/-- The non-blocking drain loop run by `printLogs` on cancellation: it
appends the already-queued lines to the window one receive at a time and
stops at the first would-block (or closed) receive, never waiting for new
lines. -/
def drainLoop (window : List rawLogLine) : List rawLogLine → List rawLogLine
  | [] => window
  | logLine :: rest => drainLoop (window ++ [logLine]) rest

/-- Model of the `printLogs` event loop over a sequence of observed
events, carrying the current window.  `closed` returns `nil` after the
deferred `flush` runs; `flushTick` flushes and clears the window;
`ctxDone` drains the queued lines without blocking and returns `nil`
after the deferred `flush`.  The result is the list of writes performed
from this point on, and `some ()` when the function returned (with `nil`),
`none` while it is still waiting for events. -/
def printLogsGo (D : Deps) (hideServiceName : Bool) :
    List plEvent → List rawLogLine → List outLine × Option Unit
  | [], _ => ([], none)
  | .recv logLine :: evs, window => printLogsGo D hideServiceName evs (window ++ [logLine])
  | .closed :: _, window => (flushOutput D hideServiceName window, some ())
  | .flushTick :: evs, window =>
    match printLogsGo D hideServiceName evs [] with
    | (out, r) => (flushOutput D hideServiceName window ++ out, r)
  | .ctxDone queued :: _, window =>
    (flushOutput D hideServiceName (drainLoop window queued), some ())

lemma filter_orderedInsert_loggedAt (t : Nat) (a : parsedLogLine) :
    ∀ l : List parsedLogLine,
      (List.orderedInsert leLog a l).filter (fun p => p.loggedAt == t) =
        if a.loggedAt = t then a :: l.filter (fun p => p.loggedAt == t)
        else l.filter (fun p => p.loggedAt == t)
  | [] => by
    by_cases hat : a.loggedAt = t
    · simp [List.orderedInsert, hat]
    · simp [List.orderedInsert, hat]
  | b :: l => by
    simp only [List.orderedInsert]
    split
    · next hle =>
      rw [List.filter_cons]
      by_cases hat : a.loggedAt = t
      · rw [if_pos (by simpa using hat), if_pos hat]
      · rw [if_neg (by simpa using hat), if_neg hat]
    · next hgt =>
      have hblt : b.loggedAt < a.loggedAt := Nat.lt_of_not_le (by simpa [leLog] using hgt)
      rw [List.filter_cons, List.filter_cons,
        filter_orderedInsert_loggedAt t a l]
      by_cases hat : a.loggedAt = t
      · have hbt : (b.loggedAt == t) = false := by
          simp only [beq_eq_false_iff_ne, ne_eq]
          omega
        simp [hat, hbt]
      · simp only [if_neg hat]

lemma filter_insertionSort_loggedAt (t : Nat) :
    ∀ l : List parsedLogLine,
      (List.insertionSort leLog l).filter (fun p => p.loggedAt == t) =
        l.filter (fun p => p.loggedAt == t)
  | [] => rfl
  | a :: l => by
    simp only [List.insertionSort]
    rw [filter_orderedInsert_loggedAt t a (List.insertionSort leLog l),
      filter_insertionSort_loggedAt t l, List.filter_cons]
    by_cases hat : a.loggedAt = t
    · rw [if_pos hat, if_pos (by simpa [beq_iff_eq] using hat)]
    · rw [if_neg hat, if_neg (by simpa [beq_iff_eq] using hat)]

/-- C2: every flushed window is printed in an order that is non-decreasing
in the parsed logical timestamp `loggedAt`, the sort is stable — for every
timestamp value, the entries carrying it appear in exactly their arrival
order within the window — and the printed lines are exactly the sorted
entries rendered in that order. -/
theorem flush_sorted_stable (D : Deps) (hideServiceName : Bool) (window : List rawLogLine) :
    (sortWindow D window).Pairwise (fun a b => a.loggedAt ≤ b.loggedAt)
    ∧ (∀ t : Nat,
        (sortWindow D window).filter (fun p => p.loggedAt == t) =
          (parseWindow D window).filter (fun p => p.loggedAt == t))
    ∧ flushOutput D hideServiceName window =
        (sortWindow D window).map (printOne D hideServiceName) :=
  ⟨List.sorted_insertionSort leLog (parseWindow D window),
   fun t => filter_insertionSort_loggedAt t (parseWindow D window),
   rfl⟩

/-- C6: an error-free window entry whose message is malformed (no space,
or an unparseable timestamp prefix) is still printed rather than dropped:
the flush places it in the sorted window unchanged with its `receivedAt`
receipt time as its sort key, and its rendering appears in the flush
output. -/
theorem malformed_line_still_printed (D : Deps) (hideServiceName : Bool)
    (window : List rawLogLine) (r : rawLogLine) (e : String)
    (hr : r ∈ window) (herr : r.error = none)
    (hparse : parseLogLine D r.message = .error e) :
    parsedLogLine.mk r.fromContainer r.message r.receivedAt "" ∈ sortWindow D window
    ∧ printOne D hideServiceName (parsedLogLine.mk r.fromContainer r.message r.receivedAt "")
        ∈ flushOutput D hideServiceName window := by
  have hmk : mkParsed D r = [⟨r.fromContainer, r.message, r.receivedAt, ""⟩] := by
    unfold mkParsed
    rw [herr, hparse]
  have hmem : parsedLogLine.mk r.fromContainer r.message r.receivedAt "" ∈ parseWindow D window := by
    unfold parseWindow
    rw [List.mem_flatMap]
    exact ⟨r, hr, by rw [hmk]; simp⟩
  have hsort : parsedLogLine.mk r.fromContainer r.message r.receivedAt "" ∈ sortWindow D window := by
    unfold sortWindow
    rw [List.mem_insertionSort]
    exact hmem
  exact ⟨hsort, List.mem_map_of_mem _ hsort⟩

/-- Witness for C6: a line without any space separator is printed with its
receipt time 42 as sort key. -/
theorem malformed_line_still_printed_witness :
    parsedLogLine.mk "web" "garbage-no-space" 42 "" ∈
      sortWindow D0 [⟨none, "web", "garbage-no-space", 42⟩]
    ∧ printOne D0 false (parsedLogLine.mk "web" "garbage-no-space" 42 "")
        ∈ flushOutput D0 false [⟨none, "web", "garbage-no-space", 42⟩] :=
  malformed_line_still_printed D0 false [⟨none, "web", "garbage-no-space", 42⟩]
    ⟨none, "web", "garbage-no-space", 42⟩ "malformed line" (by simp) rfl rfl

lemma drainLoop_eq_append : ∀ (queued window : List rawLogLine),
    drainLoop window queued = window ++ queued
  | [], window => by simp [drainLoop]
  | logLine :: rest, window => by
    rw [drainLoop, drainLoop_eq_append rest (window ++ [logLine])]
    simp

/-- C7: on context cancellation, `printLogs` drains exactly the raw lines
already queued on the channel (the drain loop appends them one at a time
and never consumes the later events), flushes the window including them,
and returns nil. -/
theorem cancellation_drains_flushes_returns_nil (D : Deps) (hideServiceName : Bool)
    (evs : List plEvent) (window queued : List rawLogLine) :
    printLogsGo D hideServiceName (plEvent.ctxDone queued :: evs) window =
      (flushOutput D hideServiceName (window ++ queued), some ())
    ∧ drainLoop window queued = window ++ queued := by
  have h := drainLoop_eq_append queued window
  constructor
  · unfold printLogsGo
    rw [h]
  · exact h

/-- C8 counterexample: the status message "The container exited." is not
interleaved into the log stream via `formatOverride` — `printStatusMessage`
writes it directly to stderr as a one-off line (here with the concrete
colorizer of `D0` and the palette color 5 picked for "web"), and no
`parsedLogLine` built from the raw-line stream ever carries a nonempty
`formatOverride`, as shown on a window holding a terminal-error entry and
an ordinary line. -/
theorem status_message_not_via_formatOverride :
    printStatusMessage D0 "web" "The container exited." false =
      outLine.stderr ("web#5 - The container exited.\n")
    ∧ (parseWindow D0 [⟨some "EOF", "web", "", 7⟩, ⟨none, "web", "5 hello", 3⟩]).all
        (fun p => p.formatOverride == "") = true :=
  ⟨rfl, rfl⟩

/-- C8 amended: user-visible failure status messages are written directly
to stderr by `printStatusMessage`, with a colored `service - ` marker
unless the service name is hidden; the printer does support
`formatOverride` — whenever it is nonempty the printer writes exactly that
literal string, bypassing colorization and the source-name formatting —
but no producer in the code sets it: every `parsedLogLine` built by
`flush` from the stream has an empty `formatOverride`. -/
theorem status_message_stderr_and_formatOverride_printer (D : Deps) :
    (∀ service message : String,
        printStatusMessage D service message false =
          outLine.stderr
            (D.gotermColor service (pickColor service) ++ " - " ++ message ++ "\n")
        ∧ printStatusMessage D service message true = outLine.stderr (message ++ "\n"))
    ∧ (∀ (hideServiceName : Bool) (p : parsedLogLine), p.formatOverride ≠ "" →
        printOne D hideServiceName p = outLine.stdout p.formatOverride)
    ∧ (∀ r : rawLogLine, ∀ p ∈ mkParsed D r, p.formatOverride = "") := by
  refine ⟨?_, ?_, ?_⟩
  · intro service message
    constructor
    · unfold printStatusMessage
      rw [if_neg (by simp)]
    · rfl
  · intro hideServiceName p hp
    unfold printOne
    rw [if_pos hp]
  · intro r p hp
    unfold mkParsed at hp
    rcases r with ⟨err, c, m, at_⟩
    cases err with
    | none =>
      simp only at hp
      rcases h : parseLogLine D m with e | ⟨msg, ts⟩ <;> rw [h] at hp <;>
        simp at hp <;> rw [hp]
    | some e0 =>
      simp only at hp
      split at hp
      · rcases h : parseLogLine D m with e | ⟨msg, ts⟩ <;> rw [h] at hp <;>
          simp at hp <;> rw [hp]
      · simp at hp

/-- Witness for C8 amended: a parsed line carrying a nonempty override is
printed literally, and the concrete status message goes to stderr. -/
theorem status_message_stderr_and_formatOverride_printer_witness :
    printOne D0 true ⟨"web", "msg", 0, "OVERRIDE"⟩ = outLine.stdout "OVERRIDE"
    ∧ printStatusMessage D0 "web" "exited" true = outLine.stderr ("exited" ++ "\n") :=
  ⟨(status_message_stderr_and_formatOverride_printer D0).2.1 true
      ⟨"web", "msg", 0, "OVERRIDE"⟩ (by simp),
   ((status_message_stderr_and_formatOverride_printer D0).1 "web" "exited").2⟩

/-- Control state of one Reader goroutine in `Command.Run`: whether it is
currently inside `forwardLogs` (counted by `runningCount`), whether the
current read session has already emitted its terminal error-carrying line,
and — as history needed to state the completion claim — whether it has
ever emitted one. -/
structure rdState where
  running : Bool
  emitted : Bool
  everEmitted : Bool
deriving DecidableEq

/-- The observable events of the completion machinery in `Command.Run`
(lines 148-205), for a run in which every stream opens successfully:
a Reader sends its terminal error-carrying rawLogLine (readLoop, line
297-302 with err ≠ nil), a Reader returns from `forwardLogs` and
decrements `runningCount` under the mutex, a Reader observes a restart and
increments `runningCount` under the mutex (follow mode only), and the
completion watcher goroutine observes `runningCount == 0` and calls
`cancel()`. -/
inductive aggEvent (N : Nat)
  | emitTerminal (i : Fin N)
  | exitLoop (i : Fin N)
  | resume (i : Fin N)
  | cancelFired
deriving DecidableEq

/-- Shared state of the completion tracker: the per-reader control states
and the `runningCount` counter (an integer, as the Go int). -/
structure aggSt (N : Nat) where
  rd : Fin N → rdState
  cnt : Int

/-- Initial state: `runningCount := len(cmd.Services)`, every Reader
reading. -/
def aggInit (N : Nat) : aggSt N := ⟨fun _ => ⟨true, false, false⟩, N⟩

/-- One guarded step of the completion machinery.  The guards encode the
control flow of `Command.Run` and the non-follow read loop: a reader emits
its terminal line while running, at most once per session; it exits its
read loop (decrementing the counter) only after that emission; it resumes
(incrementing) only in follow mode and only while stopped; the watcher
fires `cancel()` only when it observes `runningCount == 0`.  All counter
accesses are mutex-guarded in the source, which is what justifies
modelling them as atomic interleaved steps. -/
def aggStep (follow : Bool) {N : Nat} (c : aggSt N) : aggEvent N → Option (aggSt N)
  | .emitTerminal i =>
    if (c.rd i).running = true ∧ (c.rd i).emitted = false then
      some ⟨Function.update c.rd i ⟨true, true, true⟩, c.cnt⟩
    else none
  | .exitLoop i =>
    if (c.rd i).running = true ∧ (c.rd i).emitted = true then
      some ⟨Function.update c.rd i ⟨false, (c.rd i).emitted, (c.rd i).everEmitted⟩,
        c.cnt - 1⟩
    else none
  | .resume i =>
    if follow = true ∧ (c.rd i).running = false then
      some ⟨Function.update c.rd i ⟨true, false, (c.rd i).everEmitted⟩, c.cnt + 1⟩
    else none
  | .cancelFired => if c.cnt = 0 then some c else none

/-- Runs a sequence of events from a given state; `none` when some event
fires without its guard holding (an interleaving the code cannot produce). -/
def runFrom (follow : Bool) {N : Nat} (c : aggSt N) : List (aggEvent N) → Option (aggSt N)
  | [] => some c
  | e :: t =>
    match aggStep follow c e with
    | none => none
    | some c2 => runFrom follow c2 t

/-- Runs a sequence of events from the initial state. -/
def runTrace (follow : Bool) (N : Nat) (t : List (aggEvent N)) : Option (aggSt N) :=
  runFrom follow (aggInit N) t

/-- The number of currently running readers, as an integer. -/
def numRunning {N : Nat} (c : aggSt N) : Int :=
  ∑ i : Fin N, (if (c.rd i).running = true then (1 : Int) else 0)

/-- The completion-tracker invariant: `runningCount` equals the number of
running readers, a stopped reader has emitted its terminal line, and a
session's emission flag implies the history flag. -/
def aggInv {N : Nat} (c : aggSt N) : Prop :=
  c.cnt = numRunning c
  ∧ ∀ i, ((c.rd i).running = false → (c.rd i).everEmitted = true)
      ∧ ((c.rd i).emitted = true → (c.rd i).everEmitted = true)

lemma numRunning_update {N : Nat} (rd : Fin N → rdState) (i : Fin N) (v : rdState)
    (cnt cnt2 : Int) :
    numRunning ⟨Function.update rd i v, cnt2⟩ =
      numRunning ⟨rd, cnt⟩ - (if (rd i).running = true then 1 else 0)
        + (if v.running = true then 1 else 0) := by
  unfold numRunning
  have h1 : (∑ j : Fin N, if (Function.update rd i v j).running = true then (1 : Int) else 0)
      = (if v.running = true then (1 : Int) else 0)
        + ∑ j ∈ Finset.univ.erase i, (if (rd j).running = true then (1 : Int) else 0) := by
    rw [← Finset.add_sum_erase _ _ (Finset.mem_univ i)]
    congr 1
    · rw [Function.update_same]
    · exact Finset.sum_congr rfl fun j hj => by
        rw [Function.update_noteq (Finset.ne_of_mem_erase hj)]
  have h2 : (∑ j : Fin N, if (rd j).running = true then (1 : Int) else 0)
      = (if (rd i).running = true then (1 : Int) else 0)
        + ∑ j ∈ Finset.univ.erase i, (if (rd j).running = true then (1 : Int) else 0) :=
    (Finset.add_sum_erase _ _ (Finset.mem_univ i)).symm
  simp only at h1 h2 ⊢
  rw [h1, h2]
  ring

lemma aggInv_init (N : Nat) : aggInv (aggInit N) := by
  constructor
  · show ((N : Nat) : Int) = numRunning (aggInit N)
    unfold numRunning aggInit
    simp
  · intro i
    exact ⟨fun h => by simp [aggInit] at h, fun h => by simp [aggInit] at h⟩

lemma aggStep_inv {N : Nat} {follow : Bool} {c c2 : aggSt N} {e : aggEvent N}
    (h : aggStep follow c e = some c2) (hinv : aggInv c) : aggInv c2 := by
  obtain ⟨hcnt, hpt⟩ := hinv
  cases e with
  | emitTerminal i =>
    rw [aggStep] at h
    split at h
    · next hg =>
      cases h
      constructor
      · show c.cnt = _
        rw [numRunning_update c.rd i _ c.cnt c.cnt, ← hcnt]
        simp [hg.1]
      · intro j
        by_cases hij : j = i
        · subst hij
          dsimp only
          rw [Function.update_same]
          exact ⟨fun h0 => rfl, fun h0 => rfl⟩
        · dsimp only
          rw [Function.update_noteq hij]
          exact hpt j
    · exact absurd h (by simp)
  | exitLoop i =>
    rw [aggStep] at h
    split at h
    · next hg =>
      cases h
      constructor
      · show c.cnt - 1 = _
        rw [numRunning_update c.rd i _ c.cnt (c.cnt - 1), ← hcnt]
        simp [hg.1]
      · intro j
        by_cases hij : j = i
        · subst hij
          dsimp only
          rw [Function.update_same]
          exact ⟨fun _ => (hpt j).2 hg.2, fun _ => (hpt j).2 hg.2⟩
        · dsimp only
          rw [Function.update_noteq hij]
          exact hpt j
    · exact absurd h (by simp)
  | resume i =>
    rw [aggStep] at h
    split at h
    · next hg =>
      cases h
      constructor
      · show c.cnt + 1 = _
        rw [numRunning_update c.rd i _ c.cnt (c.cnt + 1), ← hcnt]
        simp [hg.2]
      · intro j
        by_cases hij : j = i
        · subst hij
          dsimp only
          rw [Function.update_same]
          exact ⟨fun h0 => absurd h0 (by simp), fun h0 => absurd h0 (by simp)⟩
        · dsimp only
          rw [Function.update_noteq hij]
          exact hpt j
    · exact absurd h (by simp)
  | cancelFired =>
    rw [aggStep] at h
    split at h
    · cases h
      exact ⟨hcnt, hpt⟩
    · exact absurd h (by simp)

lemma runFrom_inv {N : Nat} {follow : Bool} :
    ∀ (t : List (aggEvent N)) (c c2 : aggSt N),
      runFrom follow c t = some c2 → aggInv c → aggInv c2
  | [], c, c2, h, hinv => by
    rw [runFrom] at h
    cases h
    exact hinv
  | e :: t, c, c2, h, hinv => by
    rw [runFrom] at h
    rcases hs : aggStep follow c e with _ | c1
    · rw [hs] at h
      cases h
    · rw [hs] at h
      exact runFrom_inv t c1 c2 h (aggStep_inv hs hinv)

lemma aggStep_everEmitted {N : Nat} {follow : Bool} {c c1 : aggSt N} {e : aggEvent N}
    {i : Fin N} (h : aggStep follow c e = some c1)
    (hev : (c1.rd i).everEmitted = true) :
    (c.rd i).everEmitted = true ∨ e = aggEvent.emitTerminal i := by
  cases e with
  | emitTerminal j =>
    by_cases hij : i = j
    · subst hij
      exact Or.inr rfl
    · rw [aggStep] at h
      split at h
      · cases h
        dsimp only at hev
        rw [Function.update_noteq hij] at hev
        exact Or.inl hev
      · exact absurd h (by simp)
  | exitLoop j =>
    rw [aggStep] at h
    split at h
    · cases h
      dsimp only at hev
      by_cases hij : i = j
      · subst hij
        rw [Function.update_same] at hev
        exact Or.inl hev
      · rw [Function.update_noteq hij] at hev
        exact Or.inl hev
    · exact absurd h (by simp)
  | resume j =>
    rw [aggStep] at h
    split at h
    · cases h
      dsimp only at hev
      by_cases hij : i = j
      · subst hij
        rw [Function.update_same] at hev
        exact Or.inl hev
      · rw [Function.update_noteq hij] at hev
        exact Or.inl hev
    · exact absurd h (by simp)
  | cancelFired =>
    rw [aggStep] at h
    split at h
    · cases h
      exact Or.inl hev
    · exact absurd h (by simp)

lemma runFrom_everEmitted {N : Nat} {follow : Bool} :
    ∀ (t : List (aggEvent N)) (c c2 : aggSt N) (i : Fin N),
      runFrom follow c t = some c2 → (c2.rd i).everEmitted = true →
      (c.rd i).everEmitted = true ∨ aggEvent.emitTerminal i ∈ t
  | [], c, c2, i, h, hev => by
    rw [runFrom] at h
    cases h
    exact Or.inl hev
  | e :: t, c, c2, i, h, hev => by
    rw [runFrom] at h
    rcases hs : aggStep follow c e with _ | c1
    · rw [hs] at h
      cases h
    · rw [hs] at h
      rcases runFrom_everEmitted t c1 c2 i h hev with h1 | h1
      · rcases aggStep_everEmitted hs h1 with h2 | h2
        · exact Or.inl h2
        · exact Or.inr (by rw [h2]; simp)
      · exact Or.inr (by simp [h1])

lemma runFrom_append {N : Nat} {follow : Bool} :
    ∀ (t1 t2 : List (aggEvent N)) (c : aggSt N),
      runFrom follow c (t1 ++ t2) =
        match runFrom follow c t1 with
        | none => none
        | some c1 => runFrom follow c1 t2
  | [], t2, c => by rw [runFrom]; rfl
  | e :: t1, t2, c => by
    rw [List.cons_append, runFrom, runFrom]
    rcases hs : aggStep follow c e with _ | c1
    · rfl
    · exact runFrom_append t1 t2 c1

lemma numRunning_nonneg {N : Nat} (c : aggSt N) : 0 ≤ numRunning c :=
  Finset.sum_nonneg fun i _ => by split <;> omega

lemma numRunning_le {N : Nat} (c : aggSt N) : numRunning c ≤ N := by
  calc numRunning c ≤ ∑ _i : Fin N, (1 : Int) :=
        Finset.sum_le_sum fun i _ => by split <;> omega
    _ = N := by simp

lemma numRunning_zero_iff {N : Nat} (c : aggSt N) :
    numRunning c = 0 ↔ ∀ i, (c.rd i).running = false := by
  constructor
  · intro h i
    have := (Finset.sum_eq_zero_iff_of_nonneg
      (fun j (_ : j ∈ Finset.univ) => by split <;> omega)).mp h i (Finset.mem_univ i)
    by_contra hc
    rw [Bool.not_eq_false] at hc
    rw [if_pos hc] at this
    cases this
  · intro h
    exact Finset.sum_eq_zero fun i _ => by rw [if_neg (by rw [h i]; simp)]

/-- C1: with N Readers started and follow not set (no resume events are
possible), the completion watcher can fire `cancel()` only after every
Reader has emitted its terminal error-carrying line — never before — and
it does fire once every Reader has stopped; and on the raw-line channel
closing, `printLogs` flushes the pending window once more (the deferred
flush) and returns nil. -/
theorem aggregation_completion :
    (∀ (N : Nat) (pre post : List (aggEvent N)),
        (runTrace false N (pre ++ aggEvent.cancelFired :: post)).isSome = true →
        ∀ i : Fin N, aggEvent.emitTerminal i ∈ pre)
    ∧ (∀ (N : Nat) (t : List (aggEvent N)) (c : aggSt N),
        runTrace false N t = some c → (∀ i, (c.rd i).running = false) →
        (runTrace false N (t ++ [aggEvent.cancelFired])).isSome = true)
    ∧ (∀ (D : Deps) (hideServiceName : Bool) (evs : List plEvent)
        (window : List rawLogLine),
        printLogsGo D hideServiceName (plEvent.closed :: evs) window =
          (flushOutput D hideServiceName window, some ())) := by
  refine ⟨?_, ?_, ?_⟩
  · intro N pre post h i
    unfold runTrace at h
    rw [runFrom_append] at h
    rcases hpre : runFrom false (aggInit N) pre with _ | c
    · rw [hpre] at h
      cases h
    · rw [hpre] at h
      simp only [runFrom] at h
      rcases hs : aggStep false c .cancelFired with _ | c1
      · rw [hs] at h
        cases h
      · have hz : c.cnt = 0 := by
          rw [aggStep] at hs
          by_contra hnz
          rw [if_neg hnz] at hs
          cases hs
        have hinv := runFrom_inv pre (aggInit N) c hpre (aggInv_init N)
        have h0 : numRunning c = 0 := by
          rw [← hinv.1]
          exact hz
        have hall := (numRunning_zero_iff c).mp h0
        have hever := (hinv.2 i).1 (hall i)
        rcases runFrom_everEmitted pre (aggInit N) c i hpre hever with h1 | h1
        · exact absurd h1 (by simp [aggInit])
        · exact h1
  · intro N t c h hall
    unfold runTrace at h ⊢
    rw [runFrom_append, h]
    have hinv := runFrom_inv t (aggInit N) c h (aggInv_init N)
    have hz : c.cnt = 0 := by
      rw [hinv.1]
      exact (numRunning_zero_iff c).mpr hall
    simp [runFrom, aggStep, hz]
  · intro D hideServiceName evs window
    rfl

/-- Witness for C1: for a single non-following Reader, the only way to
reach the watcher's `cancel()` is after the Reader's terminal emission. -/
theorem aggregation_completion_witness :
    aggEvent.emitTerminal (0 : Fin 1) ∈
      [aggEvent.emitTerminal (0 : Fin 1), aggEvent.exitLoop 0] :=
  aggregation_completion.1 1 [aggEvent.emitTerminal 0, aggEvent.exitLoop 0] []
    (by decide) 0

/-- C4: along every realizable interleaving, `runningCount` stays within
[0, N]: it starts at N, and each Reader exit step decrements it by exactly
one while each resume step increments it by exactly one (the model's
atomic steps correspond to the mutex-guarded critical sections of the
source). -/
theorem runningCount_bounded (follow : Bool) (N : Nat) (t : List (aggEvent N))
    (c : aggSt N) (h : runTrace follow N t = some c) :
    (0 ≤ c.cnt ∧ c.cnt ≤ (N : Int))
    ∧ (aggInit N).cnt = (N : Int)
    ∧ (∀ (d d2 : aggSt N) (i : Fin N),
        aggStep follow d (aggEvent.exitLoop i) = some d2 → d2.cnt = d.cnt - 1)
    ∧ (∀ (d d2 : aggSt N) (i : Fin N),
        aggStep follow d (aggEvent.resume i) = some d2 → d2.cnt = d.cnt + 1) := by
  have hinv := runFrom_inv t (aggInit N) c h (aggInv_init N)
  refine ⟨⟨?_, ?_⟩, rfl, ?_, ?_⟩
  · rw [hinv.1]
    exact numRunning_nonneg c
  · rw [hinv.1]
    exact numRunning_le c
  · intro d d2 i hs
    rw [aggStep] at hs
    split at hs
    · cases hs
      rfl
    · exact absurd hs (by simp)
  · intro d d2 i hs
    rw [aggStep] at hs
    split at hs
    · cases hs
      rfl
    · exact absurd hs (by simp)

/-- Witness for C4 at N = 2: the counter starts at 2 and is within
bounds. -/
theorem runningCount_bounded_witness :
    ((0 : Int) ≤ (aggInit 2).cnt ∧ (aggInit 2).cnt ≤ (2 : Int))
    ∧ (aggInit 2).cnt = (2 : Int) := by
  have h := runningCount_bounded false 2 [] (aggInit 2) rfl
  exact ⟨h.1, h.2.1⟩
